import Mathlib

/-!
Shallow embedding of the oscilloscope persistence-trace pipeline from
`src/test.py` and `src/test2.py`, with theorems checking the specification.

Python floats are modelled as exact rationals where the code only adds,
multiplies, divides and compares them, and as real numbers where
trigonometric functions or square roots are involved.
-/

namespace Pyscilloscope

/-- Python `int(q)` applied to an exact rational: truncation toward zero. -/
def pyInt (q : ℚ) : ℤ := if 0 ≤ q then ⌊q⌋ else ⌈q⌉

/-- Python `int(x)` applied to a real value: truncation toward zero. -/
noncomputable def pyIntR (x : ℝ) : ℤ := if 0 ≤ x then ⌊x⌋ else ⌈x⌉

/-- Python `x % y`: for `y > 0` this is `x - y * ⌊x / y⌋`, the representative
of `x` modulo `y` lying in `[0, y)`. -/
noncomputable def pyMod (x y : ℝ) : ℝ := x - y * ⌊x / y⌋

/-- The constant `INITIAL_BRIGHTNESS = 1.0` from both source files. -/
def INITIAL_BRIGHTNESS : ℚ := 1

/-- A trace mark: `class Spot`, identical in both source files. -/
structure Spot where
  pos : ℤ × ℤ
  initial_radius : ℚ
  brightness : ℚ
  decay_rate : ℚ
  age : ℕ
deriving DecidableEq

/-- Spot construction `Spot(pos, radius, decay_rate)` with the default
initial brightness. -/
def mkSpot (pos : ℤ × ℤ) (radius decay_rate : ℚ) : Spot :=
  ⟨pos, radius, INITIAL_BRIGHTNESS, decay_rate, 0⟩

/-- One aging step, `Spot.update`: multiply brightness by the spot's own
decay rate and increment its age. -/
def Spot.update (s : Spot) : Spot :=
  { s with brightness := s.brightness * s.decay_rate, age := s.age + 1 }

/-- The `Spot.radius` property: `int(self.initial_radius * math.sqrt(self.brightness))`. -/
noncomputable def Spot.radius (s : Spot) : ℤ :=
  pyIntR ((s.initial_radius : ℝ) * Real.sqrt (s.brightness : ℝ))

/-- One circle blitted by `Spot.draw`: its center, radius and the alpha
component `int(255 * brightness)` of its color. -/
structure DrawCmd where
  center : ℤ × ℤ
  radius : ℤ
  alpha : ℤ

/-- `Spot.draw`: returns early (drawing nothing) when `brightness <= 0.01`,
otherwise draws one filled circle of the current radius whose alpha scales
with brightness. -/
noncomputable def Spot.draw (s : Spot) : Option DrawCmd :=
  if s.brightness ≤ 1 / 100 then none
  else some ⟨s.pos, s.radius, pyInt (255 * s.brightness)⟩

/-- Effect on the spot list of the per-frame store pass
`for spot in spots[:]: spot.update(); spot.draw(screen);
if spot.brightness <= 0.01: spots.remove(spot)`
(`src/test2.py` lines 340-344, `src/test.py` lines 186-190): every spot is
aged, and the spots whose new brightness is at or below 0.01 are removed. -/
def storeTick : List Spot → List Spot
  | [] => []
  | s :: rest =>
    if s.update.brightness ≤ 1 / 100 then storeTick rest
    else s.update :: storeTick rest

/-- Circles emitted by the same per-frame store pass: `draw` is called on
each spot right after its update, before any eviction happens. -/
noncomputable def frameDraws : List Spot → List DrawCmd
  | [] => []
  | s :: rest =>
    match s.update.draw with
    | some c => c :: frameDraws rest
    | none => frameDraws rest

/-- Iterated frame aging of the store. -/
def storeIter (n : ℕ) (spots : List Spot) : List Spot := storeTick^[n] spots

/-- Brightness of a mark after `n` aging ticks, starting from 1.0 and
multiplying by the decay factor once per tick. -/
def brightnessAfter (d : ℚ) : ℕ → ℚ
  | 0 => INITIAL_BRIGHTNESS
  | n + 1 => brightnessAfter d n * d

/-- Waveform kinds: `class WaveType(Enum)` from `src/test2.py`. -/
inductive WaveType
  | SINE
  | SQUARE
  | SAWTOOTH
  | TRIANGLE
deriving DecidableEq

/-- `SignalGenerator.generate_wave` from `src/test2.py` (lines 211-221). -/
noncomputable def generate_wave (wave_type : WaveType)
    (freq amp offset t phase : ℝ) : ℝ :=
  let normalized_t := 2 * Real.pi * freq * (t + phase / freq)
  let value : ℝ :=
    match wave_type with
    | .SINE => Real.sin normalized_t
    | .SQUARE => if 0 ≤ Real.sin normalized_t then 1 else -1
    | .SAWTOOTH => 2 * (pyMod normalized_t (2 * Real.pi) / (2 * Real.pi) - 1)
    | .TRIANGLE => 2 * |2 * (pyMod normalized_t (2 * Real.pi) / (2 * Real.pi) - 1) - 1|
  amp * value + offset

/-- Per-axis channel configuration, as read from the channel sliders. -/
structure ChannelConfig where
  wave : WaveType
  freq : ℝ
  amp : ℝ
  offset : ℝ
  phase : ℝ

/-- `SignalGenerator.get_xy_position` from `src/test2.py` (lines 223-240):
each axis value is mapped via `center + int(halfExtent * wave)` and clamped
with `max(0, min(extent, coordinate))`. -/
noncomputable def get_xy_position (xc yc : ChannelConfig)
    (canvas_width screen_height : ℤ) (t : ℝ) : ℤ × ℤ :=
  let x : ℤ := Int.fdiv canvas_width 2 +
    pyIntR ((Int.fdiv canvas_width 2 : ℤ) *
      generate_wave xc.wave xc.freq xc.amp xc.offset t xc.phase)
  let y : ℤ := Int.fdiv screen_height 2 +
    pyIntR ((Int.fdiv screen_height 2 : ℤ) *
      generate_wave yc.wave yc.freq yc.amp yc.offset t yc.phase)
  (max 0 (min canvas_width x), max 0 (min screen_height y))

/-- `SignalGenerator.get_xy_position` from `src/test.py` (lines 110-123),
evaluated at the time value reached after the per-call `self.time += self.dt`
increment; screen size (800×600), frequencies (0.5 Hz and 1.0 Hz) and
amplitudes (0.4) are the module constants of that file. Note the multiplier
is the full screen extent times the amplitude, not the half extent. -/
noncomputable def get_xy_position_v1 (time : ℝ) : ℤ × ℤ :=
  let center_x : ℤ := Int.fdiv 800 2
  let center_y : ℤ := Int.fdiv 600 2
  let x : ℤ := center_x + pyIntR (800 * 0.4 * Real.sin (2 * Real.pi * 0.5 * time))
  let y : ℤ := center_y + pyIntR (600 * 0.4 * Real.cos (2 * Real.pi * 1.0 * time))
  (max 0 (min 800 x), max 0 (min 600 y))

/-- Formalisation of claim C6's words: map a synthesized value to pixel space
as `center + halfExtent * value` truncated to an integer, then clamp the
coordinate to `[0, extent]`. -/
noncomputable def specPixelMap (center halfExtent : ℤ) (value : ℝ) (extent : ℤ) : ℤ :=
  max 0 (min extent (center + pyIntR ((halfExtent : ℝ) * value)))

/-- Formalisation of claim C2's words: the asserted Triangle value
`amplitude * (2 * abs(2 * frac(θ/2π) - 1)) + offset` with
`θ = 2π·frequency·(t + phase/frequency)` and `frac(x) = x mod 1` in `[0,1)`. -/
noncomputable def triangleClaimValue (freq amp offset phase t : ℝ) : ℝ :=
  amp * (2 * |2 * Int.fract (2 * Real.pi * freq * (t + phase / freq) / (2 * Real.pi)) - 1|)
    + offset

/-- `interpolate_points(p1, p2, steps)` from `src/test2.py` (lines 242-246):
Python's `range(1, steps + 1)` is modelled as `j + 1` for `j` in
`List.range steps`, and `int(...)` truncates the exact quotient toward zero. -/
def interpolate_points (p1 p2 : ℤ × ℤ) (steps : ℕ) : List (ℤ × ℤ) :=
  (List.range steps).map fun (j : ℕ) =>
    (pyInt ((p1.1 : ℚ) + ((p2.1 : ℚ) - (p1.1 : ℚ)) * ((j : ℚ) + 1) / (steps : ℚ)),
     pyInt ((p1.2 : ℚ) + ((p2.2 : ℚ) - (p1.2 : ℚ)) * ((j : ℚ) + 1) / (steps : ℚ)))

/-- The signal-mode polling while-loop of `src/test2.py` (lines 324-329):
while the accumulator is at least one interval, subtract the interval,
advance the simulated signal time by the interval, and append one sampled
position. `sample` abstracts `signal_gen.get_xy_position` as a function of
the simulated time. The source loop diverges for a nonpositive interval, so
the guard carries `0 < interval` to make the Lean function total; for
`0 < interval` (the callers' invariant) the behaviour is exactly the
source's. -/
def pollLoop (sample : ℚ → ℤ × ℤ) (interval acc simTime : ℚ)
    (ps : List (ℤ × ℤ)) : ℚ × ℚ × List (ℤ × ℤ) :=
  if h : 0 < interval ∧ interval ≤ acc then
    pollLoop sample interval (acc - interval) (simTime + interval)
      (ps ++ [sample (simTime + interval)])
  else (acc, simTime, ps)
termination_by (⌊acc / interval⌋).toNat
decreasing_by
  obtain ⟨hpos, hle⟩ := h
  have h1 : (acc - interval) / interval = acc / interval - 1 := by
    rw [sub_div, div_self (ne_of_gt hpos)]
  have h2 : ⌊acc / interval - 1⌋ = ⌊acc / interval⌋ - 1 := by
    simp [Int.floor_sub_int (acc / interval) 1]
  have h3 : (1 : ℤ) ≤ ⌊acc / interval⌋ := by
    rw [Int.le_floor]
    push_cast
    rw [le_div_iff₀ hpos]
    linarith
  rw [h1, h2]
  omega

/-- The constant `SPOTS_PER_FRAME = 10` from `src/test2.py`. -/
def SPOTS_PER_FRAME : ℕ := 10

/-- The per-tick mutable state of `main` in `src/test2.py` that the core
pipeline reads and writes: the mode flag, the live spot list, the last value
assigned to `current_pos`, the polling accumulator `time_since_last_poll`,
the simulated signal time `signal_gen.time`, and the carried
`poll_positions` list. -/
structure FrameState where
  mouse_mode : Bool
  spots : List Spot
  current_pos : ℤ × ℤ
  time_since_last_poll : ℚ
  signal_time : ℚ
  poll_positions : List (ℤ × ℤ)

/-- The space-key handler of `src/test2.py` (lines 290-291):
`mouse_mode = not mouse_mode`. -/
def toggleMouseMode (st : FrameState) : FrameState :=
  { st with mouse_mode := ! st.mouse_mode }

/-- One tick of the core pipeline in `main` of `src/test2.py`
(lines 309-346). In mouse mode (lines 313-318) the pointer position becomes
`current_pos`, intermediate points to it from the last spot are interpolated
and ingested, then the pointer position itself is ingested. In signal mode
(lines 319-338) the accumulator grows by `dt`, the polling loop runs, and
consecutive polled positions are interpolated and ingested, keeping only the
last polled position; `current_pos` is not assigned in this branch. Finally,
the store pass ages and evicts spots (lines 340-344). The fixed core marker
(line 346) is drawn at the resulting `current_pos`. -/
def frameStep (sample : ℚ → ℤ × ℤ) (dt : ℚ) (pointer_pos : ℤ × ℤ)
    (size decay polling_rate : ℚ) (st : FrameState) : FrameState :=
  let polling_interval : ℚ := 1 / polling_rate
  if st.mouse_mode then
    let current_pos := pointer_pos
    let spots₁ :=
      match st.spots.getLast? with
      | some last =>
        if current_pos ≠ last.pos then
          st.spots ++ (interpolate_points last.pos current_pos SPOTS_PER_FRAME).map
            (fun p => mkSpot p size decay)
        else st.spots
      | none => st.spots
    let spots₂ := spots₁ ++ [mkSpot current_pos size decay]
    { st with current_pos := current_pos, spots := storeTick spots₂ }
  else
    let acc := st.time_since_last_poll + dt
    let res := pollLoop sample polling_interval acc st.signal_time st.poll_positions
    let spots₂ :=
      if 2 ≤ res.2.2.length then
        st.spots ++ (res.2.2.zip res.2.2.tail).flatMap
          (fun pq => (interpolate_points pq.1 pq.2 SPOTS_PER_FRAME).map
            (fun p => mkSpot p size decay))
      else st.spots
    let polls := if 2 ≤ res.2.2.length then res.2.2.getLast?.toList else res.2.2
    { st with spots := storeTick spots₂,
              time_since_last_poll := res.1,
              signal_time := res.2.1,
              poll_positions := polls }

/-! ## Helper lemmas -/

lemma brightnessAfter_eq_pow (d : ℚ) (n : ℕ) : brightnessAfter d n = d ^ n := by
  induction n with
  | zero => rfl
  | succ n ih => rw [brightnessAfter, ih, pow_succ]

lemma brightnessAfter_pos (d : ℚ) (hd : 0 < d) (n : ℕ) :
    0 < brightnessAfter d n := by
  rw [brightnessAfter_eq_pow]
  positivity

lemma storeIter_succ (n : ℕ) (spots : List Spot) :
    storeIter (n + 1) spots = storeTick (storeIter n spots) := by
  simp [storeIter, Function.iterate_succ_apply']

lemma storeIter_single (d : ℚ) (hd0 : 0 < d) (hd1 : d ≤ 1) (p : ℤ × ℤ) (r : ℚ)
    (n : ℕ) :
    (brightnessAfter d n ≤ 1 / 100 → storeIter n [mkSpot p r d] = []) ∧
    (1 / 100 < brightnessAfter d n →
      storeIter n [mkSpot p r d] = [⟨p, r, brightnessAfter d n, d, n⟩]) := by
  induction n with
  | zero =>
    constructor
    · intro h
      exfalso
      simp only [brightnessAfter, INITIAL_BRIGHTNESS] at h
      norm_num at h
    · intro _
      rfl
  | succ n ih =>
    have hmono : brightnessAfter d (n + 1) ≤ brightnessAfter d n := by
      have hpos := brightnessAfter_pos d hd0 n
      calc brightnessAfter d n * d ≤ brightnessAfter d n * 1 :=
            mul_le_mul_of_nonneg_left hd1 (le_of_lt hpos)
        _ = brightnessAfter d n := mul_one _
    rcases le_or_lt (brightnessAfter d n) (1 / 100) with hn | hn
    · have he : storeIter (n + 1) [mkSpot p r d] = [] := by
        rw [storeIter_succ, ih.1 hn]
        rfl
      refine ⟨fun _ => he, fun hgt => absurd hgt ?_⟩
      push_neg
      linarith
    · have hsing := ih.2 hn
      have hstep : storeIter (n + 1) [mkSpot p r d] =
          if brightnessAfter d (n + 1) ≤ 1 / 100 then []
          else [⟨p, r, brightnessAfter d (n + 1), d, n + 1⟩] := by
        rw [storeIter_succ, hsing]
        simp only [storeTick, Spot.update, brightnessAfter]
      constructor
      · intro h
        rw [hstep, if_pos h]
      · intro h
        rw [hstep, if_neg (by linarith)]

lemma storeIter_single_empty_iff (d : ℚ) (hd0 : 0 < d) (hd1 : d ≤ 1)
    (p : ℤ × ℤ) (r : ℚ) (n : ℕ) :
    storeIter n [mkSpot p r d] = [] ↔ brightnessAfter d n ≤ 1 / 100 := by
  constructor
  · intro h
    by_contra hgt
    push_neg at hgt
    rw [(storeIter_single d hd0 hd1 p r n).2 hgt] at h
    exact absurd h (by simp)
  · exact (storeIter_single d hd0 hd1 p r n).1

lemma pyInt_intCast (b : ℤ) : pyInt (b : ℚ) = b := by
  unfold pyInt
  split <;> simp

lemma pyInt_mem (m M : ℤ) (q : ℚ) (h1 : (m : ℚ) ≤ q) (h2 : q ≤ (M : ℚ)) :
    m ≤ pyInt q ∧ pyInt q ≤ M := by
  unfold pyInt
  split
  · refine ⟨Int.le_floor.mpr h1, ?_⟩
    exact_mod_cast le_trans (Int.floor_le q) h2
  · refine ⟨?_, Int.ceil_le.mpr h2⟩
    exact_mod_cast le_trans h1 (Int.le_ceil q)

lemma blend_trunc_bounds (a b : ℤ) (j n : ℕ) (hn : 0 < n) (hj : j < n) :
    min a b ≤ pyInt ((a : ℚ) + ((b : ℚ) - (a : ℚ)) * ((j : ℚ) + 1) / (n : ℚ)) ∧
    pyInt ((a : ℚ) + ((b : ℚ) - (a : ℚ)) * ((j : ℚ) + 1) / (n : ℚ)) ≤ max a b := by
  have ht0 : (0 : ℚ) ≤ ((j : ℚ) + 1) / (n : ℚ) := by positivity
  have ht1 : ((j : ℚ) + 1) / (n : ℚ) ≤ 1 := by
    rw [div_le_one (by exact_mod_cast hn)]
    exact_mod_cast hj
  set t : ℚ := ((j : ℚ) + 1) / (n : ℚ) with htdef
  have hblend : (a : ℚ) + ((b : ℚ) - (a : ℚ)) * ((j : ℚ) + 1) / (n : ℚ) =
      (a : ℚ) + ((b : ℚ) - (a : ℚ)) * t := by
    rw [htdef, mul_div_assoc]
  rw [hblend]
  rcases le_total a b with hab | hab
  · have hab' : (a : ℚ) ≤ (b : ℚ) := by exact_mod_cast hab
    have h1 : (a : ℚ) ≤ (a : ℚ) + ((b : ℚ) - (a : ℚ)) * t := by nlinarith
    have h2 : (a : ℚ) + ((b : ℚ) - (a : ℚ)) * t ≤ (b : ℚ) := by nlinarith
    rw [min_eq_left hab, max_eq_right hab]
    exact pyInt_mem a b _ h1 h2
  · have hab' : (b : ℚ) ≤ (a : ℚ) := by exact_mod_cast hab
    have h1 : (b : ℚ) ≤ (a : ℚ) + ((b : ℚ) - (a : ℚ)) * t := by nlinarith
    have h2 : (a : ℚ) + ((b : ℚ) - (a : ℚ)) * t ≤ (a : ℚ) := by nlinarith
    rw [min_eq_right hab, max_eq_left hab]
    exact pyInt_mem b a _ h1 h2

/-! ## Claim C1 -/

/-- C1: for every TraceMark created with decay factor in (0,1), the
brightness sequence `b_0 = 1, b_n = b_{n-1} * d` is strictly decreasing and
reaches a value at or below 0.01 after finitely many ticks; the store
(iterating the per-frame update/evict pass) holds the mark exactly while its
brightness exceeds 0.01, so it is removed on the first tick the floor is
crossed; with decay factor 0.9 the mark is gone exactly from tick 44 on. -/
theorem trace_mark_decay_and_eviction (d : ℚ) (p : ℤ × ℤ) (r : ℚ)
    (hd0 : 0 < d) (hd1 : d < 1) :
    (∀ n, brightnessAfter d (n + 1) < brightnessAfter d n) ∧
    (∃ N, brightnessAfter d N ≤ 1 / 100) ∧
    (∀ n, storeIter n [mkSpot p r d] = [] ↔ brightnessAfter d n ≤ 1 / 100) ∧
    (∀ n, storeIter n [mkSpot p r (9 / 10)] = [] ↔ 44 ≤ n) := by
  refine ⟨?_, ?_, ?_, ?_⟩
  · intro n
    have hpos := brightnessAfter_pos d hd0 n
    calc brightnessAfter d (n + 1) = brightnessAfter d n * d := rfl
      _ < brightnessAfter d n := mul_lt_of_lt_one_right hpos hd1
  · obtain ⟨N, hN⟩ :=
      exists_pow_lt_of_lt_one (show (0 : ℚ) < 1 / 100 by norm_num) hd1
    refine ⟨N, ?_⟩
    rw [brightnessAfter_eq_pow]
    linarith
  · exact fun n => storeIter_single_empty_iff d hd0 (le_of_lt hd1) p r n
  · intro n
    rw [storeIter_single_empty_iff (9 / 10) (by norm_num) (by norm_num) p r n,
      brightnessAfter_eq_pow]
    constructor
    · intro h
      by_contra hlt
      push_neg at hlt
      have hm : ((9 : ℚ) / 10) ^ 43 ≤ ((9 : ℚ) / 10) ^ n :=
        pow_le_pow_of_le_one (by norm_num) (by norm_num) (by omega)
      have h43 : (1 : ℚ) / 100 < ((9 : ℚ) / 10) ^ 43 := by norm_num
      linarith
    · intro h
      have hm : ((9 : ℚ) / 10) ^ n ≤ ((9 : ℚ) / 10) ^ 44 :=
        pow_le_pow_of_le_one (by norm_num) (by norm_num) h
      have h44 : ((9 : ℚ) / 10) ^ 44 ≤ 1 / 100 := by norm_num
      linarith

/-- Witness for C1 at decay factor 1/2, position (3,4), radius 5. -/
theorem trace_mark_decay_and_eviction_witness :
    (0 : ℚ) < 1 / 2 ∧ (1 : ℚ) / 2 < 1 ∧
    ((∀ n, brightnessAfter (1 / 2) (n + 1) < brightnessAfter (1 / 2) n) ∧
     (∃ N, brightnessAfter (1 / 2) N ≤ 1 / 100) ∧
     (∀ n, storeIter n [mkSpot (3, 4) 5 (1 / 2)] = [] ↔
        brightnessAfter (1 / 2) n ≤ 1 / 100) ∧
     (∀ n, storeIter n [mkSpot (3, 4) 5 (9 / 10)] = [] ↔ 44 ≤ n)) :=
  ⟨by norm_num, by norm_num,
    trace_mark_decay_and_eviction (1 / 2) (3, 4) 5 (by norm_num) (by norm_num)⟩

/-! ## Claim C4 -/

/-- C4: `interpolate_points(p1, p2, n)` returns exactly `n` points; the j-th
point (0-based j, so 1-based i = j+1) is the linear blend at fractional
distance `(j+1)/n` with each coordinate truncated toward zero, so `p1` is
excluded and `p2` included; the last point is exactly `p2`; and for `n = 1`
the result is the single point `p2`. -/
theorem interpolate_points_spec (p1 p2 : ℤ × ℤ) (n : ℕ) (hn : 0 < n) :
    (interpolate_points p1 p2 n).length = n ∧
    (∀ j : ℕ, j < n →
      (interpolate_points p1 p2 n)[j]? =
        some (pyInt ((p1.1 : ℚ) + ((p2.1 : ℚ) - (p1.1 : ℚ)) * ((j : ℚ) + 1) / (n : ℚ)),
              pyInt ((p1.2 : ℚ) + ((p2.2 : ℚ) - (p1.2 : ℚ)) * ((j : ℚ) + 1) / (n : ℚ)))) ∧
    (interpolate_points p1 p2 n).getLast? = some p2 ∧
    interpolate_points p1 p2 1 = [p2] := by
  have hlen : (interpolate_points p1 p2 n).length = n := by
    rw [interpolate_points, List.length_map, List.length_range]
  have hidx : ∀ j : ℕ, j < n →
      (interpolate_points p1 p2 n)[j]? =
        some (pyInt ((p1.1 : ℚ) + ((p2.1 : ℚ) - (p1.1 : ℚ)) * ((j : ℚ) + 1) / (n : ℚ)),
              pyInt ((p1.2 : ℚ) + ((p2.2 : ℚ) - (p1.2 : ℚ)) * ((j : ℚ) + 1) / (n : ℚ))) := by
    intro j hj
    rw [interpolate_points, List.getElem?_map, List.getElem?_range hj, Option.map_some']
  have hblend : ∀ a b : ℤ, ∀ k : ℕ, 0 < k →
      (a : ℚ) + ((b : ℚ) - (a : ℚ)) * (((k - 1 : ℕ) : ℚ) + 1) / ((k : ℕ) : ℚ) = (b : ℚ) := by
    intro a b k hk
    obtain ⟨l, rfl⟩ : ∃ l, k = l + 1 := ⟨k - 1, by omega⟩
    have hne : (((l + 1 : ℕ)) : ℚ) ≠ 0 := by positivity
    rw [Nat.add_sub_cancel]
    rw [show (((l : ℕ) : ℚ) + 1) = (((l + 1 : ℕ)) : ℚ) by push_cast; ring]
    rw [mul_div_assoc, div_self hne, mul_one]
    ring
  have hlast : (interpolate_points p1 p2 n).getLast? = some p2 := by
    rw [List.getLast?_eq_getElem? _, hlen]
    rw [hidx (n - 1) (by omega), hblend p1.1 p2.1 n hn, hblend p1.2 p2.2 n hn,
      pyInt_intCast, pyInt_intCast]
  have hone : interpolate_points p1 p2 1 = [p2] := by
    have h1 : ∀ a b : ℤ,
        (a : ℚ) + ((b : ℚ) - (a : ℚ)) * (((0 : ℕ) : ℚ) + 1) / ((1 : ℕ) : ℚ) = (b : ℚ) := by
      intro a b
      push_cast
      ring
    rw [show interpolate_points p1 p2 1 =
        [(pyInt ((p1.1 : ℚ) + ((p2.1 : ℚ) - (p1.1 : ℚ)) * (((0 : ℕ) : ℚ) + 1) / ((1 : ℕ) : ℚ)),
          pyInt ((p1.2 : ℚ) + ((p2.2 : ℚ) - (p1.2 : ℚ)) * (((0 : ℕ) : ℚ) + 1) / ((1 : ℕ) : ℚ)))]
      from rfl]
    rw [h1 p1.1 p2.1, h1 p1.2 p2.2, pyInt_intCast, pyInt_intCast]
  exact ⟨hlen, hidx, hlast, hone⟩

/-- Witness for C4 at p1 = (0,0), p2 = (3,5), n = 2. -/
theorem interpolate_points_spec_witness :
    0 < 2 ∧
    ((interpolate_points (0, 0) (3, 5) 2).length = 2 ∧
     (∀ j : ℕ, j < 2 →
       (interpolate_points (0, 0) (3, 5) 2)[j]? =
         some (pyInt (((0, 0) : ℤ × ℤ).1 + ((((3, 5) : ℤ × ℤ).1 : ℚ) - (((0, 0) : ℤ × ℤ).1 : ℚ)) * ((j : ℚ) + 1) / ((2 : ℕ) : ℚ)),
               pyInt (((0, 0) : ℤ × ℤ).2 + ((((3, 5) : ℤ × ℤ).2 : ℚ) - (((0, 0) : ℤ × ℤ).2 : ℚ)) * ((j : ℚ) + 1) / ((2 : ℕ) : ℚ)))) ∧
     (interpolate_points (0, 0) (3, 5) 2).getLast? = some (3, 5) ∧
     interpolate_points (0, 0) (3, 5) 1 = [(3, 5)]) :=
  ⟨by norm_num, interpolate_points_spec (0, 0) (3, 5) 2 (by norm_num)⟩

/-! ## Claim C10 -/

/-- C10: every point returned by `interpolate_points(p1, p2, n)` lies inside
the axis-aligned bounding box of `p1` and `p2`; consequently, interpolating
between two on-canvas positions only produces on-canvas points. -/
theorem interpolate_points_in_bbox (p1 p2 : ℤ × ℤ) (n : ℕ) (hn : 0 < n) :
    (∀ q ∈ interpolate_points p1 p2 n,
      min p1.1 p2.1 ≤ q.1 ∧ q.1 ≤ max p1.1 p2.1 ∧
      min p1.2 p2.2 ≤ q.2 ∧ q.2 ≤ max p1.2 p2.2) ∧
    (∀ W H : ℤ, 0 ≤ p1.1 → p1.1 ≤ W → 0 ≤ p2.1 → p2.1 ≤ W →
      0 ≤ p1.2 → p1.2 ≤ H → 0 ≤ p2.2 → p2.2 ≤ H →
      ∀ q ∈ interpolate_points p1 p2 n,
        0 ≤ q.1 ∧ q.1 ≤ W ∧ 0 ≤ q.2 ∧ q.2 ≤ H) := by
  have hbox : ∀ q ∈ interpolate_points p1 p2 n,
      min p1.1 p2.1 ≤ q.1 ∧ q.1 ≤ max p1.1 p2.1 ∧
      min p1.2 p2.2 ≤ q.2 ∧ q.2 ≤ max p1.2 p2.2 := by
    intro q hq
    simp only [interpolate_points, List.mem_map, List.mem_range] at hq
    obtain ⟨j, hj, rfl⟩ := hq
    obtain ⟨hx1, hx2⟩ := blend_trunc_bounds p1.1 p2.1 j n hn hj
    obtain ⟨hy1, hy2⟩ := blend_trunc_bounds p1.2 p2.2 j n hn hj
    exact ⟨hx1, hx2, hy1, hy2⟩
  refine ⟨hbox, ?_⟩
  intro W H h1 h2 h3 h4 h5 h6 h7 h8 q hq
  obtain ⟨hx1, hx2, hy1, hy2⟩ := hbox q hq
  refine ⟨le_trans (le_min h1 h3) hx1, le_trans hx2 (max_le h2 h4),
    le_trans (le_min h5 h7) hy1, le_trans hy2 (max_le h6 h8)⟩

/-- Witness for C10 at p1 = (0,0), p2 = (3,5), n = 2. -/
theorem interpolate_points_in_bbox_witness :
    0 < 2 ∧
    ((∀ q ∈ interpolate_points (0, 0) (3, 5) 2,
       min (0 : ℤ) 3 ≤ q.1 ∧ q.1 ≤ max (0 : ℤ) 3 ∧
       min (0 : ℤ) 5 ≤ q.2 ∧ q.2 ≤ max (0 : ℤ) 5) ∧
     (∀ W H : ℤ, 0 ≤ (0 : ℤ) → (0 : ℤ) ≤ W → 0 ≤ (3 : ℤ) → (3 : ℤ) ≤ W →
       0 ≤ (0 : ℤ) → (0 : ℤ) ≤ H → 0 ≤ (5 : ℤ) → (5 : ℤ) ≤ H →
       ∀ q ∈ interpolate_points (0, 0) (3, 5) 2,
         0 ≤ q.1 ∧ q.1 ≤ W ∧ 0 ≤ q.2 ∧ q.2 ≤ H)) :=
  ⟨by norm_num, interpolate_points_in_bbox (0, 0) (3, 5) 2 (by norm_num)⟩

/-! ## The polling loop -/

lemma pollLoop_spec (sample : ℚ → ℤ × ℤ) (interval : ℚ) (hI : 0 < interval) :
    ∀ (n : ℕ) (acc simTime : ℚ) (ps : List (ℤ × ℤ)),
      (⌊acc / interval⌋).toNat = n →
      pollLoop sample interval acc simTime ps =
        (acc - (n : ℚ) * interval, simTime + (n : ℚ) * interval,
          ps ++ (List.range n).map
            (fun k : ℕ => sample (simTime + ((k : ℚ) + 1) * interval))) := by
  intro n
  induction n with
  | zero =>
    intro acc simTime ps hn
    have hfl : ⌊acc / interval⌋ ≤ 0 := by omega
    have hlt : acc < interval := by
      by_contra hge
      push_neg at hge
      have h1 : (1 : ℤ) ≤ ⌊acc / interval⌋ := by
        rw [Int.le_floor]
        push_cast
        rw [le_div_iff₀ hI]
        linarith
      omega
    rw [pollLoop, dif_neg (by push_neg; intro _; linarith)]
    simp
  | succ n ih =>
    intro acc simTime ps hn
    have hfl : (1 : ℤ) ≤ ⌊acc / interval⌋ := by omega
    have hge : interval ≤ acc := by
      have h1 : ((1 : ℤ) : ℚ) ≤ acc / interval := Int.le_floor.mp hfl
      rw [le_div_iff₀ hI] at h1
      push_cast at h1
      linarith
    rw [pollLoop, dif_pos ⟨hI, hge⟩]
    have hfl' : (⌊(acc - interval) / interval⌋).toNat = n := by
      have h1 : (acc - interval) / interval = acc / interval - 1 := by
        rw [sub_div, div_self (ne_of_gt hI)]
      have h2 : ⌊acc / interval - 1⌋ = ⌊acc / interval⌋ - 1 := by
        simp [Int.floor_sub_int (acc / interval) 1]
      rw [h1, h2]
      omega
    rw [ih (acc - interval) (simTime + interval) _ hfl']
    simp only [Prod.mk.injEq]
    refine ⟨by push_cast; ring, by push_cast; ring, ?_⟩
    have htail : sample (simTime + interval) ::
        (List.range n).map
          (fun k : ℕ => sample (simTime + interval + ((k : ℚ) + 1) * interval)) =
        (List.range (n + 1)).map
          (fun k : ℕ => sample (simTime + ((k : ℚ) + 1) * interval)) := by
      rw [List.range_succ_eq_map, List.map_cons, List.map_map]
      congr 1
      · exact congrArg sample (by norm_num)
      · refine List.map_congr_left fun k _ => congrArg sample ?_
        push_cast
        ring
    rw [List.append_assoc, List.singleton_append, htail]

/-! ## Claim C5 -/

/-- C5: a signal-mode tick entered with accumulator `acc` (with
`0 ≤ acc < interval`), wall-time delta `dt ≥ 0` and `interval > 0` runs the
polling loop exactly `⌊(acc + dt) / interval⌋` times: the final accumulator
is the start value minus that many intervals, the simulated time advances by
exactly that many intervals, and one sampled position per firing is appended,
sampled at simulated times that are strictly increasing in the firing index
(so the loop fires zero, one or many times depending on the floor). -/
theorem polling_scheduler_tick (sample : ℚ → ℤ × ℤ)
    (interval acc dt simTime : ℚ) (ps : List (ℤ × ℤ))
    (hI : 0 < interval) (hdt : 0 ≤ dt) (hacc : 0 ≤ acc) (hlt : acc < interval) :
    pollLoop sample interval (acc + dt) simTime ps =
      (acc + dt - ((⌊(acc + dt) / interval⌋).toNat : ℚ) * interval,
       simTime + ((⌊(acc + dt) / interval⌋).toNat : ℚ) * interval,
       ps ++ (List.range (⌊(acc + dt) / interval⌋).toNat).map
         (fun k : ℕ => sample (simTime + ((k : ℚ) + 1) * interval))) ∧
    StrictMono (fun k : ℕ => simTime + ((k : ℚ) + 1) * interval) := by
  refine ⟨pollLoop_spec sample interval hI _ _ _ _ rfl, ?_⟩
  intro a b hab
  have hab' : (a : ℚ) < (b : ℚ) := by exact_mod_cast hab
  simp only
  nlinarith

/-- Witness for C5 at interval 1, accumulator 1/2, delta 2. -/
theorem polling_scheduler_tick_witness :
    (0 : ℚ) < 1 ∧ (0 : ℚ) ≤ 2 ∧ (0 : ℚ) ≤ 1 / 2 ∧ (1 : ℚ) / 2 < 1 ∧
    (pollLoop (fun _ => ((0 : ℤ), (0 : ℤ))) 1 (1 / 2 + 2) 0 [] =
      (1 / 2 + 2 - ((⌊((1 : ℚ) / 2 + 2) / 1⌋).toNat : ℚ) * 1,
       0 + ((⌊((1 : ℚ) / 2 + 2) / 1⌋).toNat : ℚ) * 1,
       [] ++ (List.range (⌊((1 : ℚ) / 2 + 2) / 1⌋).toNat).map
         (fun _ : ℕ => ((0 : ℤ), (0 : ℤ)))) ∧
     StrictMono (fun k : ℕ => (0 : ℚ) + ((k : ℚ) + 1) * 1)) :=
  ⟨by norm_num, by norm_num, by norm_num, by norm_num,
    polling_scheduler_tick (fun _ => (0, 0)) 1 (1 / 2) 2 0 []
      (by norm_num) (by norm_num) (by norm_num) (by norm_num)⟩

/-! ## Claim C9 -/

/-- C9: the polling accumulator satisfies `0 ≤ time_since_last_poll <
polling_interval` at the end of every tick, given a positive polling rate, a
nonnegative wall-time delta and the invariant at tick start; a mouse-mode
tick leaves the accumulator unchanged. -/
theorem accumulator_invariant (sample : ℚ → ℤ × ℤ) (dt : ℚ)
    (pointer_pos : ℤ × ℤ) (size decay polling_rate : ℚ) (st : FrameState)
    (hrate : 0 < polling_rate) (hdt : 0 ≤ dt)
    (h0 : 0 ≤ st.time_since_last_poll)
    (h1 : st.time_since_last_poll < 1 / polling_rate) :
    (0 ≤ (frameStep sample dt pointer_pos size decay polling_rate st).time_since_last_poll ∧
     (frameStep sample dt pointer_pos size decay polling_rate st).time_since_last_poll
       < 1 / polling_rate) ∧
    (st.mouse_mode = true →
      (frameStep sample dt pointer_pos size decay polling_rate st).time_since_last_poll
        = st.time_since_last_poll) := by
  have hI : 0 < 1 / polling_rate := by positivity
  by_cases hm : st.mouse_mode = true
  · have he : (frameStep sample dt pointer_pos size decay polling_rate st).time_since_last_poll
        = st.time_since_last_poll := by
      simp [frameStep, hm]
    exact ⟨⟨he ▸ h0, he ▸ h1⟩, fun _ => he⟩
  · have he : (frameStep sample dt pointer_pos size decay polling_rate st).time_since_last_poll
        = (pollLoop sample (1 / polling_rate) (st.time_since_last_poll + dt)
            st.signal_time st.poll_positions).1 := by
      simp [frameStep, hm]
    set A := st.time_since_last_poll + dt with hA
    set i := 1 / polling_rate with hi
    have hs := pollLoop_spec sample i hI (⌊A / i⌋).toNat A st.signal_time
      st.poll_positions rfl
    have hAnn : 0 ≤ A := by rw [hA]; linarith
    have hfl0 : 0 ≤ ⌊A / i⌋ := Int.floor_nonneg.mpr (by positivity)
    have hcast : (((⌊A / i⌋).toNat : ℚ)) = ((⌊A / i⌋ : ℤ) : ℚ) := by
      exact_mod_cast congrArg (fun z : ℤ => (z : ℚ)) (Int.toNat_of_nonneg hfl0)
    have hkey : A - ((⌊A / i⌋).toNat : ℚ) * i = Int.fract (A / i) * i := by
      rw [hcast, Int.fract, sub_mul, div_mul_cancel₀ _ (ne_of_gt hI)]
    have hfr1 : (0 : ℝ) = 0 := rfl
    have hfrac1 : 0 ≤ Int.fract (A / i) := Int.fract_nonneg _
    have hfrac2 : Int.fract (A / i) < 1 := Int.fract_lt_one _
    refine ⟨?_, fun hmm => absurd hmm hm⟩
    rw [he, hs]
    simp only
    rw [hkey]
    constructor
    · exact mul_nonneg hfrac1 (le_of_lt hI)
    · calc Int.fract (A / i) * i < 1 * i := by
            exact mul_lt_mul_of_pos_right hfrac2 hI
        _ = i := one_mul i

/-- Witness for C9 in signal mode with polling rate 2, delta 1, start
accumulator 1/3. -/
theorem accumulator_invariant_witness :
    (0 : ℚ) < 2 ∧ (0 : ℚ) ≤ 1 ∧
    (0 : ℚ) ≤ (FrameState.mk false [] (0, 0) (1 / 3) 0 []).time_since_last_poll ∧
    (FrameState.mk false [] (0, 0) (1 / 3) 0 []).time_since_last_poll < 1 / 2 ∧
    ((0 ≤ (frameStep (fun _ => ((0 : ℤ), (0 : ℤ))) 1 (0, 0) 10 (9 / 10) 2
        (FrameState.mk false [] (0, 0) (1 / 3) 0 [])).time_since_last_poll ∧
      (frameStep (fun _ => ((0 : ℤ), (0 : ℤ))) 1 (0, 0) 10 (9 / 10) 2
        (FrameState.mk false [] (0, 0) (1 / 3) 0 [])).time_since_last_poll < 1 / 2) ∧
     ((FrameState.mk false [] ((0 : ℤ), (0 : ℤ)) (1 / 3) 0 []).mouse_mode = true →
      (frameStep (fun _ => ((0 : ℤ), (0 : ℤ))) 1 (0, 0) 10 (9 / 10) 2
        (FrameState.mk false [] (0, 0) (1 / 3) 0 [])).time_since_last_poll = 1 / 3)) :=
  ⟨by norm_num, by norm_num, by norm_num, by norm_num,
    accumulator_invariant (fun _ => (0, 0)) 1 (0, 0) 10 (9 / 10) 2
      (FrameState.mk false [] (0, 0) (1 / 3) 0 [])
      (by norm_num) (by norm_num) (by norm_num) (by norm_num)⟩

/-! ## Claim C3 -/

/-- C3 (evaluating the code at the failing input): in `src/test2.py` a
signal-mode tick never assigns `current_pos`, so the fixed small core marker
(line 346) is drawn at the stale previous position instead of the current
live position. Here the tick polls exactly one new signal position
(560, 300), which becomes the most recently sampled live position, yet the
marker is drawn at the old (0, 0). -/
theorem marker_stale_in_signal_mode :
    (frameStep (fun _ => ((560 : ℤ), (300 : ℤ))) 1 (100, 100) 10 (9 / 10) 1
      (FrameState.mk false [] (0, 0) 0 0 [])).current_pos = (0, 0) ∧
    (frameStep (fun _ => ((560 : ℤ), (300 : ℤ))) 1 (100, 100) 10 (9 / 10) 1
      (FrameState.mk false [] (0, 0) 0 0 [])).poll_positions = [(560, 300)] ∧
    ((0 : ℤ), (0 : ℤ)) ≠ ((560 : ℤ), (300 : ℤ)) := by
  have hp := pollLoop_spec (fun _ => ((560 : ℤ), (300 : ℤ))) 1 (by norm_num) 1
    (0 + 1) 0 [] (by norm_num)
  norm_num at hp
  refine ⟨?_, ?_, by decide⟩
  · simp [frameStep]
  · simp [frameStep, hp]

/-! ## Claim C7 -/

/-- C7: a mark at or below the brightness floor 0.01 is never rendered: the
draw call emits no circle exactly when brightness is at or below 0.01, and
the per-frame pass draws each spot only after its aging update of the same
frame, so a spot aged to or below the floor this frame is skipped even
though eviction has not yet removed it from the list being processed. -/
theorem below_floor_never_rendered :
    (∀ s : Spot, s.draw = none ↔ s.brightness ≤ 1 / 100) ∧
    (∀ spots : List Spot,
      frameDraws spots = (spots.map Spot.update).filterMap Spot.draw) := by
  constructor
  · intro s
    by_cases h : s.brightness ≤ 1 / 100 <;> simp [Spot.draw, h]
  · intro spots
    induction spots with
    | nil => rfl
    | cons s rest ih =>
      rw [List.map_cons, List.filterMap_cons]
      cases hd : s.update.draw with
      | none => rw [frameDraws, hd, ih]
      | some c => rw [frameDraws, hd, ih]

/-! ## Claim C8 -/

lemma storeTick_append (l1 l2 : List Spot) :
    storeTick (l1 ++ l2) = storeTick l1 ++ storeTick l2 := by
  induction l1 with
  | nil => rfl
  | cons s rest ih =>
    simp only [List.cons_append, storeTick, ih]
    split <;> simp [ih]

/-- C8: toggling the mode flag does not clear the store (the spot list is
untouched); every frame transforms the pre-existing spots by the same
mode-independent aging pass, with any newly ingested marks appended after
them; and `n` aging steps keep a mark's position, base radius and decay
factor fixed while its brightness is multiplied by its own decay factor to
the `n`-th power, exactly as if no mode switch had occurred. -/
theorem mode_switch_preserves_marks :
    (∀ st : FrameState, (toggleMouseMode st).spots = st.spots) ∧
    (∀ (sample : ℚ → ℤ × ℤ) (dt : ℚ) (pointer_pos : ℤ × ℤ)
       (size decay polling_rate : ℚ) (st : FrameState),
       ∃ ingested : List Spot,
         (frameStep sample dt pointer_pos size decay polling_rate st).spots =
           storeTick st.spots ++ storeTick ingested) ∧
    (∀ (s : Spot) (n : ℕ),
       Spot.update^[n] s =
         ⟨s.pos, s.initial_radius, s.brightness * s.decay_rate ^ n,
          s.decay_rate, s.age + n⟩) := by
  refine ⟨fun st => rfl, ?_, ?_⟩
  · intro sample dt ptr size decay rate st
    have key : ∃ ingested : List Spot,
        (frameStep sample dt ptr size decay rate st).spots =
          storeTick (st.spots ++ ingested) := by
      by_cases hm : st.mouse_mode = true
      · cases hl : st.spots.getLast? with
        | none =>
          refine ⟨[mkSpot ptr size decay], ?_⟩
          simp [frameStep, hm, hl]
        | some last =>
          by_cases hps : ptr ≠ last.pos
          · refine ⟨(interpolate_points last.pos ptr SPOTS_PER_FRAME).map
                (fun p => mkSpot p size decay) ++ [mkSpot ptr size decay], ?_⟩
            simp [frameStep, hm, hl, hps, List.append_assoc]
          · refine ⟨[mkSpot ptr size decay], ?_⟩
            simp [frameStep, hm, hl, hps]
      · simp only [Bool.not_eq_true] at hm
        by_cases h2 : 2 ≤ (pollLoop sample rate⁻¹
            (st.time_since_last_poll + dt) st.signal_time st.poll_positions).2.2.length
        · refine ⟨((pollLoop sample rate⁻¹ (st.time_since_last_poll + dt)
              st.signal_time st.poll_positions).2.2.zip
              (pollLoop sample rate⁻¹ (st.time_since_last_poll + dt)
                st.signal_time st.poll_positions).2.2.tail).flatMap
              (fun pq => (interpolate_points pq.1 pq.2 SPOTS_PER_FRAME).map
                (fun p => mkSpot p size decay)), ?_⟩
          simp [frameStep, hm, h2]
        · refine ⟨[], ?_⟩
          simp [frameStep, hm, h2]
    obtain ⟨ingested, hing⟩ := key
    exact ⟨ingested, by rw [hing, storeTick_append]⟩
  · intro s n
    obtain ⟨pos, r, b, d, a⟩ := s
    induction n with
    | zero => simp
    | succ n ih =>
      rw [Function.iterate_succ_apply', ih]
      simp only [Spot.update, Spot.mk.injEq]
      refine ⟨trivial, trivial, by rw [pow_succ]; ring, trivial, by omega⟩

/-! ## Claim C2 -/

lemma pyMod_div (x y : ℝ) (hy : y ≠ 0) : pyMod x y / y = Int.fract (x / y) := by
  rw [pyMod, sub_div, mul_comm, mul_div_assoc, div_self hy, mul_one,
    Int.self_sub_floor]

/-- C2 counterexample: at frequency 1, amplitude 1, offset 0, phase 0 and
t = 0 the source Triangle waveform evaluates to 6, while the claim's
formula `amplitude * (2 * abs(2 * frac(θ/2π) - 1)) + offset` gives 2. -/
theorem triangle_formula_counterexample :
    generate_wave .TRIANGLE 1 1 0 0 0 = 6 ∧
    triangleClaimValue 1 1 0 0 0 = 2 ∧
    generate_wave .TRIANGLE 1 1 0 0 0 ≠ triangleClaimValue 1 1 0 0 0 := by
  have hθ : 2 * Real.pi * 1 * ((0 : ℝ) + 0 / 1) = 0 := by ring
  have hm0 : pyMod 0 (2 * Real.pi) = 0 := by
    rw [pyMod, zero_div, Int.floor_zero]
    norm_num
  have h6 : generate_wave .TRIANGLE 1 1 0 0 0 = 6 := by
    simp only [generate_wave, hθ]
    rw [hm0, zero_div]
    have habs : |(2 : ℝ) * (0 - 1) - 1| = 3 := by
      rw [abs_of_nonpos (by norm_num)]
      norm_num
    rw [habs]
    norm_num
  have h2 : triangleClaimValue 1 1 0 0 0 = 2 := by
    simp only [triangleClaimValue, hθ]
    rw [zero_div, Int.fract_zero]
    have habs : |(2 : ℝ) * 0 - 1| = 1 := by
      rw [abs_of_nonpos (by norm_num)]
      norm_num
    rw [habs]
    norm_num
  exact ⟨h6, h2, by rw [h6, h2]; norm_num⟩

/-- C2 (amended): for every frequency > 0, amplitude, offset, phase and time
t, the Triangle waveform evaluates to
`amplitude * (2 * abs(2 * (frac(θ/2π) - 1) - 1)) + offset` with
`θ = 2π·frequency·(t + phase/frequency)` and `frac(x) = x mod 1` in `[0,1)`
(the source keeps the extra `- 1` inside the blend before the final `- 1`). -/
theorem triangle_wave_formula (freq amp offset phase t : ℝ) (hf : 0 < freq) :
    generate_wave .TRIANGLE freq amp offset t phase =
      amp * (2 * |2 * (Int.fract
        (2 * Real.pi * freq * (t + phase / freq) / (2 * Real.pi)) - 1) - 1|)
        + offset := by
  have h2pi : (2 * Real.pi) ≠ 0 := by positivity
  simp only [generate_wave]
  rw [pyMod_div _ _ h2pi]

/-- Witness for C2 (amended) at frequency 1, amplitude 1, offset 0, phase 0,
t = 0. -/
theorem triangle_wave_formula_witness :
    (0 : ℝ) < 1 ∧
    generate_wave .TRIANGLE 1 1 0 0 0 =
      1 * (2 * |2 * (Int.fract
        (2 * Real.pi * 1 * ((0 : ℝ) + 0 / 1) / (2 * Real.pi)) - 1) - 1|) + 0 :=
  ⟨by norm_num, triangle_wave_formula 1 1 0 0 0 (by norm_num)⟩

/-! ## Claim C6 -/

lemma pyIntR_intCast (b : ℤ) : pyIntR (b : ℝ) = b := by
  unfold pyIntR
  split <;> simp

/-- C6 counterexample: the `src/test.py` variant multiplies the sine by the
full extent times the amplitude, so at time 1/2 (where its x sine is 1) its
x coordinate is 720, while the claimed `center + halfExtent * value` mapping
(half extent 400, value `0.4 * sin + 0`) gives 560 at the same input. -/
theorem sampler_halfextent_counterexample_v1 :
    (get_xy_position_v1 (1 / 2)).1 = 720 ∧
    specPixelMap 400 400 ((0.4 : ℝ) * Real.sin (2 * Real.pi * 0.5 * (1 / 2)) + 0) 800 = 560 ∧
    (720 : ℤ) ≠ 560 := by
  have hsin : Real.sin (2 * Real.pi * (0.5 : ℝ) * ((1 : ℝ) / 2)) = 1 := by
    rw [show 2 * Real.pi * (0.5 : ℝ) * ((1 : ℝ) / 2) = Real.pi / 2 by
      rw [show (0.5 : ℝ) = 1 / 2 by norm_num]
      ring]
    exact Real.sin_pi_div_two
  refine ⟨?_, ?_, by decide⟩
  · show max 0 (min 800 (Int.fdiv 800 2 +
      pyIntR (800 * 0.4 * Real.sin (2 * Real.pi * 0.5 * ((1 : ℝ) / 2))))) = 720
    rw [hsin, show (800 : ℝ) * 0.4 * 1 = ((320 : ℤ) : ℝ) by norm_num,
      pyIntR_intCast, show Int.fdiv 800 2 = 400 by decide]
    decide
  · show max 0 (min 800 (400 +
      pyIntR (((400 : ℤ) : ℝ) * ((0.4 : ℝ) * Real.sin (2 * Real.pi * 0.5 * ((1 : ℝ) / 2)) + 0)))) = 560
    rw [hsin, show ((400 : ℤ) : ℝ) * ((0.4 : ℝ) * 1 + 0) = ((160 : ℤ) : ℝ) by push_cast; norm_num,
      pyIntR_intCast]
    decide

/-- C6 (amended): the `src/test2.py` sampler realises the claimed mapping on
each axis: `center + halfExtent * value` truncated toward zero and clamped
to `[0, extent]`, with center and half extent both `extent // 2`; and in the
scenario (canvas width 800, sine, amplitude 0.4 = 2/5, offset 0, frequency
1/2, phase 0, t = 1/2 so that sin θ = 1) the x coordinate is 560. The
`src/test.py` variant does not satisfy the claimed mapping (see the
counterexample), so the claim holds for the test2 variant only. -/
theorem sampler_pixel_mapping_v2 (xc yc : ChannelConfig)
    (canvas_width screen_height : ℤ) (t : ℝ) :
    get_xy_position xc yc canvas_width screen_height t =
      (specPixelMap (Int.fdiv canvas_width 2) (Int.fdiv canvas_width 2)
         (generate_wave xc.wave xc.freq xc.amp xc.offset t xc.phase) canvas_width,
       specPixelMap (Int.fdiv screen_height 2) (Int.fdiv screen_height 2)
         (generate_wave yc.wave yc.freq yc.amp yc.offset t yc.phase) screen_height) ∧
    (get_xy_position ⟨.SINE, 1 / 2, 2 / 5, 0, 0⟩ yc 800 600 (1 / 2)).1 = 560 := by
  constructor
  · rfl
  · have hsin : generate_wave .SINE (1 / 2) (2 / 5) 0 (1 / 2) 0 = 2 / 5 := by
      simp only [generate_wave]
      rw [show 2 * Real.pi * ((1 : ℝ) / 2) * ((1 : ℝ) / 2 + 0 / ((1 : ℝ) / 2)) =
          Real.pi / 2 by ring, Real.sin_pi_div_two]
      norm_num
    show max 0 (min 800 (Int.fdiv 800 2 +
      pyIntR (((Int.fdiv 800 2 : ℤ) : ℝ) *
        generate_wave .SINE (1 / 2) (2 / 5) 0 (1 / 2) 0))) = 560
    rw [hsin, show Int.fdiv 800 2 = 400 by decide,
      show ((400 : ℤ) : ℝ) * (2 / 5) = ((160 : ℤ) : ℝ) by push_cast; norm_num,
      pyIntR_intCast]
    decide

end Pyscilloscope
